import Mathlib

/-!
# Verification of the Spacedrive crypto subsystem and ffmpeg dictionary wrapper

This file gives a shallow embedding of:

* the encrypted-container format and streaming engine of the `crypto` crate
  (the crate's module bodies are not part of the visible source slice — only
  `lib.rs` with its module declarations is — so those components are modelled
  from the specification document, at two levels of abstraction: a byte-level
  wire model and a value-level structural model);
* the `FFmpegDict` wrapper and its `MediaMetadata` conversion from
  `crates/ffmpeg/src/dict.rs` (real source).

All definitions are executable; theorems about them settle the frozen claims.
-/

/-- A byte.  Using `Fin 256` makes byte arithmetic wrap, as `u8` does. -/
abbrev Byte := Fin 256

/-- Sum of a list of bytes, wrapping modulo 256 (used as the model checksum). -/
def sumF (l : List Byte) : Byte := l.sum

/-- Modelled from the spec: the shared error taxonomy of the crypto crate
(section 7 of the spec); the `error` module body is absent from the source
slice. -/
inductive CryptoError where
  | NotAContainer
  | UnsupportedVersion
  | Truncated
  | HeaderTampered
  | AuthenticationFailure
  | UnexpectedEndOfStream
  | InsufficientEntropy
  deriving DecidableEq, Repr

/-- Modelled from the spec: KDF cost parameters (memory/time/parallelism),
stored in the header (spec section 3, "KDF Parameters"). -/
structure Params where
  mem : Byte
  time : Byte
  par : Byte
  deriving DecidableEq, Repr

/-- Byte encoding of the KDF parameters (three one-byte cost fields). -/
def encodeParams (p : Params) : List Byte := [p.mem, p.time, p.par]

/-- Default KDF cost parameters used at encryption time. -/
def paramsDefault : Params := ⟨4, 3, 1⟩

/-- Salt length of the model wire format. -/
def SL : Nat := 2
/-- Base-nonce length of the model wire format. -/
def NL : Nat := 2
/-- Key length (content key and model-KDF output) of the wire format. -/
def KL : Nat := 2
/-- Plaintext bytes per full chunk in the model streaming engine. -/
def CHUNK : Nat := 2
/-- Wire format version byte. -/
def VER : Byte := 1
/-- Cipher identifier byte. -/
def CIPH : Byte := 1
/-- KDF identifier byte. -/
def KDFID : Byte := 1

section ListHelpers

variable {α : Type _}

theorem takeApp (x y : List α) : (x ++ y).take x.length = x := by
  induction x with
  | nil => rfl
  | cons a t ih => simp [List.take, ih]

theorem dropApp (x y : List α) : (x ++ y).drop x.length = y := by
  induction x with
  | nil => rfl
  | cons a t ih => simp [List.drop, ih]

theorem takeAppGen (x y : List α) (n : Nat) :
    (x ++ y).take (x.length + n) = x ++ y.take n := by
  induction x with
  | nil => simp
  | cons a t ih => simpa [List.take, Nat.succ_add] using ih

theorem dropAppGen (x y : List α) (n : Nat) :
    (x ++ y).drop (x.length + n) = y.drop n := by
  induction x with
  | nil => simp
  | cons a t ih => simp [List.drop, Nat.succ_add, ih]

theorem setAppLeft (x y : List α) (j : Nat) (b : α) (h : j < x.length) :
    (x ++ y).set j b = x.set j b ++ y := by
  induction x generalizing j with
  | nil => simp at h
  | cons a t ih =>
    cases j with
    | zero => rfl
    | succ j =>
      have hj : j < t.length := by simpa using Nat.lt_of_succ_lt_succ h
      simp only [List.cons_append, List.set, List.append_eq]
      rw [ih j hj]

theorem setAppRight (x y : List α) (j : Nat) (b : α) (h : x.length ≤ j) :
    (x ++ y).set j b = x ++ y.set (j - x.length) b := by
  induction x generalizing j with
  | nil => simp
  | cons a t ih =>
    cases j with
    | zero => simp at h
    | succ j =>
      have hj : t.length ≤ j := by simpa using Nat.le_of_succ_le_succ h
      simp only [List.cons_append, List.set, List.append_eq]
      rw [ih j hj]
      simp [Nat.succ_sub_succ]

theorem getDAppLeft (x y : List α) (j : Nat) (d : α) (h : j < x.length) :
    (x ++ y).getD j d = x.getD j d := by
  induction x generalizing j with
  | nil => simp at h
  | cons a t ih =>
    cases j with
    | zero => rfl
    | succ j =>
      simp only [List.cons_append, List.getD_cons_succ]
      exact ih j (by simpa using Nat.lt_of_succ_lt_succ h)

theorem getDSetSelf (l : List α) (j : Nat) (b d : α) (h : j < l.length) :
    (l.set j b).getD j d = b := by
  induction l generalizing j with
  | nil => simp at h
  | cons a t ih =>
    cases j with
    | zero => rfl
    | succ j =>
      simp only [List.set, List.getD_cons_succ]
      exact ih j (by simpa using Nat.lt_of_succ_lt_succ h)

theorem getDOfGetElem (l : List α) (j : Nat) (d : α) (h : j < l.length) :
    l.getD j d = l[j] := by
  simp [List.getD, List.getElem?_eq_getElem h]

end ListHelpers

/-- `sumF` over a one-position modification, in equation form. -/
theorem sumF_set (l : List Byte) (j : Nat) (b : Byte) (h : j < l.length) :
    sumF (l.set j b) + l[j] = sumF l + b := by
  induction l generalizing j with
  | nil => simp at h
  | cons a t ih =>
    cases j with
    | zero => simp [sumF, List.set]; ring
    | succ j =>
      have hj : j < t.length := by simpa using Nat.lt_of_succ_lt_succ h
      have := ih j hj
      simp only [List.set, sumF, List.sum_cons] at *
      calc a + (t.set j b).sum + t[j]
          = a + ((t.set j b).sum + t[j]) := by ring
        _ = a + (t.sum + b) := by rw [this]
        _ = a + t.sum + b := by ring

/-- Changing one byte to a different value changes the wrapping checksum. -/
theorem sumF_set_ne (l : List Byte) (j : Nat) (b : Byte) (h : j < l.length)
    (hb : b ≠ l[j]) : sumF (l.set j b) ≠ sumF l := by
  intro heq
  have := sumF_set l j b h
  rw [heq] at this
  exact hb (add_left_cancel this).symm

/-- Little-endian base-128 encoding of a natural number (used to bind the
unbounded chunk counter into nonces and associated data). -/
def natToVarint (n : Nat) : List Byte :=
  if h : n < 128 then [⟨n, by omega⟩]
  else ⟨n % 128 + 128, by omega⟩ :: natToVarint (n / 128)
termination_by n
decreasing_by exact Nat.div_lt_self (by omega) (by omega)

theorem natToVarint_ne_nil (n : Nat) : natToVarint n ≠ [] := by
  rw [natToVarint]
  split <;> simp

theorem natToVarint_lt (n : Nat) (h : n < 128) :
    natToVarint n = [⟨n, by omega⟩] := by
  rw [natToVarint, dif_pos h]

theorem natToVarint_ge (n : Nat) (h : ¬ n < 128) :
    natToVarint n = ⟨n % 128 + 128, by omega⟩ :: natToVarint (n / 128) := by
  rw [natToVarint, dif_neg h]

theorem natToVarint_injective : Function.Injective natToVarint := by
  intro n m h
  induction n using Nat.strong_induction_on generalizing m with
  | _ n ih =>
    by_cases hn : n < 128 <;> by_cases hm : m < 128
    · rw [natToVarint_lt n hn, natToVarint_lt m hm] at h
      simpa [Fin.ext_iff] using h
    · rw [natToVarint_lt n hn, natToVarint_ge m hm] at h
      obtain ⟨h1, h2⟩ := List.cons.inj h
      exact absurd h2.symm (natToVarint_ne_nil _)
    · rw [natToVarint_ge n hn, natToVarint_lt m hm] at h
      obtain ⟨h1, h2⟩ := List.cons.inj h
      exact absurd h2 (natToVarint_ne_nil _)
    · rw [natToVarint_ge n hn, natToVarint_ge m hm] at h
      obtain ⟨h1, h2⟩ := List.cons.inj h
      have hdiv := ih (n / 128) (Nat.div_lt_self (by omega) (by omega)) h2
      have h1' : n % 128 = m % 128 := by simpa [Fin.ext_iff] using h1
      omega

section MoreListHelpers

variable {α : Type _}

theorem setAppAt (x y : List α) (j : Nat) (b : α) :
    (x ++ y).set (x.length + j) b = x ++ y.set j b := by
  rw [setAppRight x y (x.length + j) b (Nat.le_add_right _ _)]
  simp

theorem getDAppAt (x y : List α) (j : Nat) (d : α) :
    (x ++ y).getD (x.length + j) d = y.getD j d := by
  induction x with
  | nil => simp
  | cons a t ih => simpa [Nat.succ_add] using ih

theorem set_ne_self (l : List α) (j : Nat) (b : α) (h : j < l.length)
    (hb : b ≠ l[j]) : l.set j b ≠ l := by
  intro heq
  have h1 : (l.set j b).getD j b = b := getDSetSelf l j b b h
  have h2 : l.getD j b = l[j] := getDOfGetElem l j b h
  rw [heq, h2] at h1
  exact hb h1.symm

end MoreListHelpers

theorem sumF_append (x y : List Byte) : sumF (x ++ y) = sumF x + sumF y := by
  simp [sumF]

/-- Modelled from the spec: one-byte keystream mask derived from key and
nonce; stands in for the confidentiality part of the AEAD primitive
(spec section 4.2; the `primitives` module body is absent from the source
slice). -/
def maskOf (k n : List Byte) : Byte := sumF k + sumF n

/-- Modelled from the spec: `seal(key, nonce, associated_data, plaintext) ->
ciphertext‖tag` of the AEAD primitive (spec section 4.2).  The tag embeds the
(fixed-length) key and a wrapping checksum binding nonce, associated data and
ciphertext, so verification rejects any other key and any single-byte change. -/
def sealAEAD (k n a pt : List Byte) : List Byte :=
  let ct := pt.map (· + maskOf k n)
  ct ++ k ++ [sumF (n ++ a ++ ct)]

/-- Modelled from the spec: `open(key, nonce, associated_data, ciphertext‖tag)
-> plaintext | AuthenticationFailure` of the AEAD primitive; `none` models the
authentication failure, with no partial plaintext released. -/
def openAEAD (k n a c : List Byte) : Option (List Byte) :=
  if KL + 1 ≤ c.length then
    let ct := c.take (c.length - (KL + 1))
    let tag := c.drop (c.length - (KL + 1))
    if tag = k ++ [sumF (n ++ a ++ ct)] then some (ct.map (· - maskOf k n))
    else none
  else none

theorem seal_length (k n a pt : List Byte) :
    (sealAEAD k n a pt).length = pt.length + k.length + 1 := by
  simp [sealAEAD]
  omega

/-- Evaluation of `openAEAD` on an input that is explicitly split into
ciphertext, a `KL`-byte key field and a final tag byte. -/
theorem openAEAD_app (k n a k' ct : List Byte) (s : Byte)
    (hk' : k'.length = KL) :
    openAEAD k n a (ct ++ k' ++ [s]) =
      if k' ++ [s] = k ++ [sumF (n ++ a ++ ct)] then
        some (ct.map (· - maskOf k n))
      else none := by
  have hlen : (ct ++ k' ++ [s]).length = ct.length + (KL + 1) := by
    simp [hk']
  have hsub : (ct ++ k' ++ [s]).length - (KL + 1) = ct.length := by
    rw [hlen]; omega
  have htake : (ct ++ k' ++ [s]).take ct.length = ct := by
    rw [List.append_assoc]; exact takeApp _ _
  have hdrop : (ct ++ k' ++ [s]).drop ct.length = k' ++ [s] := by
    rw [List.append_assoc]; exact dropApp _ _
  rw [openAEAD, if_pos (by omega), hsub, htake, hdrop]

theorem openAEAD_seal (k n a pt : List Byte) (hk : k.length = KL) :
    openAEAD k n a (sealAEAD k n a pt) = some pt := by
  rw [sealAEAD, openAEAD_app k n a k _ _ hk, if_pos rfl]
  simp [List.map_map, Function.comp_def]


/-- Modelled from the spec: per-chunk nonce, derived deterministically from
the header's base nonce and the chunk counter (spec section 3, "Nonce"):
the counter is bound injectively so nonces are never reused across chunks. -/
def chunkNonce (bn : List Byte) (i : Nat) : List Byte := bn ++ natToVarint i

/-- Modelled from the spec: associated data of chunk `i` — the chunk index
and the finality flag (spec section 4.5), bound into the tag. -/
def adB (i : Nat) (fin : Bool) : List Byte :=
  natToVarint i ++ [if fin then 1 else 0]

/-- Associated data under which the key slot is sealed. -/
def adSlot : List Byte := [255]

theorem sumF_ad_split (n ct : List Byte) (i : Nat) (fin : Bool) :
    sumF (n ++ adB i fin ++ ct) =
      sumF n + sumF (natToVarint i) + (if fin then 1 else 0) + sumF ct := by
  simp [adB, sumF_append, sumF]
  ring

/-- Opening a sealed chunk with the wrong finality flag fails: the flag is
bound into the tag. -/
theorem openAEAD_seal_flipFin (k n pt : List Byte) (i : Nat) (f g : Bool)
    (hk : k.length = KL) (hfg : f ≠ g) :
    openAEAD k n (adB i f) (sealAEAD k n (adB i g) pt) = none := by
  rw [sealAEAD, openAEAD_app k n (adB i f) k _ _ hk, if_neg]
  intro hcond
  have hsum := List.append_cancel_left hcond
  have : sumF (n ++ adB i g ++ pt.map (· + maskOf k n)) =
      sumF (n ++ adB i f ++ pt.map (· + maskOf k n)) := by
    simpa using hsum
  rw [sumF_ad_split, sumF_ad_split] at this
  have hif : (if g then (1 : Byte) else 0) = (if f then (1 : Byte) else 0) := by
    have h1 := add_right_cancel this
    exact add_left_cancel h1
  cases f <;> cases g
  · exact hfg rfl
  · exact absurd hif (by decide)
  · exact absurd hif (by decide)
  · exact hfg rfl

/-- Tampering with any single byte of a sealed blob makes opening it (under
the key, nonce and associated data it was sealed with) fail. -/
theorem openAEAD_tamper (k n a pt : List Byte) (hk : k.length = KL)
    (j : Nat) (b : Byte) (hj : j < (sealAEAD k n a pt).length)
    (hb : b ≠ (sealAEAD k n a pt).getD j 0) :
    openAEAD k n a ((sealAEAD k n a pt).set j b) = none := by
  have hblob : sealAEAD k n a pt =
      pt.map (· + maskOf k n) ++ k ++ [sumF (n ++ a ++ pt.map (· + maskOf k n))] := by
    rw [sealAEAD]
  set ct := pt.map (· + maskOf k n) with hct
  set s := sumF (n ++ a ++ ct) with hs
  have hjlen : j < ct.length + KL + 1 := by
    rw [hblob] at hj
    simp [hk] at hj
    omega
  by_cases hr : j < ct.length
  · -- flip inside the ciphertext: the checksum byte no longer matches
    have hget : (sealAEAD k n a pt).getD j 0 = ct[j] := by
      rw [hblob, List.append_assoc, getDAppLeft _ _ j _ hr, getDOfGetElem _ _ _ hr]
    have hset : (ct ++ k ++ [s]).set j b = ct.set j b ++ k ++ [s] := by
      rw [List.append_assoc, setAppLeft _ _ j b hr, ← List.append_assoc]
    rw [hblob, hset, openAEAD_app k n a k _ _ hk, if_neg]
    intro hcond
    have hsum : s = sumF (n ++ a ++ ct.set j b) := by
      simpa using List.append_cancel_left hcond
    have hne : sumF ((n ++ a) ++ ct.set j b) ≠ sumF ((n ++ a) ++ ct) := by
      intro h
      simp only [sumF_append] at h
      have h2 : sumF (ct.set j b) = sumF ct := add_left_cancel h
      exact sumF_set_ne ct j b hr (by rw [← hget]; exact hb) h2
    exact hne (hsum.symm.trans hs.symm)
  · -- flip inside the tag (key field or checksum byte)
    have hj' : ct.length ≤ j := Nat.le_of_not_lt hr
    obtain ⟨j', rfl⟩ : ∃ j', j = ct.length + j' := ⟨j - ct.length, by omega⟩
    have hj'lt : j' < KL + 1 := by omega
    have hset : (ct ++ (k ++ [s])).set (ct.length + j') b =
        ct ++ (k ++ [s]).set j' b := setAppAt _ _ _ _
    have hget : (sealAEAD k n a pt).getD (ct.length + j') 0 =
        (k ++ [s]).getD j' 0 := by
      rw [hblob, List.append_assoc, getDAppAt]
    by_cases hkr : j' < KL
    · -- flip inside the key field of the tag
      have hkr' : j' < k.length := by omega
      have hgetk : (k ++ [s]).getD j' 0 = k[j'] := by
        rw [getDAppLeft _ _ j' _ hkr', getDOfGetElem _ _ _ hkr']
      have hsetk : (k ++ [s]).set j' b = k.set j' b ++ [s] :=
        setAppLeft _ _ j' b hkr'
      rw [hblob, List.append_assoc, hset, hsetk, ← List.append_assoc,
        openAEAD_app k n a (k.set j' b) _ _ (by simp [hk]), if_neg]
      intro hcond
      have hlenk : (k.set j' b).length = k.length := by simp
      obtain ⟨hkey, _⟩ := List.append_inj hcond hlenk
      exact set_ne_self k j' b hkr' (by rw [← hgetk, ← hget]; exact hb) hkey
    · -- flip of the checksum byte itself
      have hj'' : j' = KL := by omega
      subst hj''
      have hgets : (k ++ [s]).getD KL 0 = s := by
        simp [hk]
      have hsets : (k ++ [s]).set KL b = k ++ [b] := by
        simp [hk]
      rw [hblob, List.append_assoc, hset, hsets, ← List.append_assoc,
        openAEAD_app k n a k _ _ hk, if_neg]
      intro hcond
      have : b = sumF (n ++ a ++ ct) := by
        simpa using List.append_cancel_left hcond
      exact hb (by rw [hget, hgets, hs, this])


/-- Full on-wire size of a non-final chunk: `CHUNK` ciphertext bytes plus the
`KL + 1` tag bytes. -/
def FULLB : Nat := CHUNK + KL + 1

/-- Modelled from the spec: split the plaintext into bounded-size chunks
(spec section 4.5); an empty plaintext yields one empty final chunk. -/
def chunkify (l : List Byte) : List (List Byte) :=
  if l.length ≤ CHUNK then [l]
  else l.take CHUNK :: chunkify (l.drop CHUNK)
termination_by l.length
decreasing_by simp_all [CHUNK]; omega

/-- Shape invariant of a chunk sequence: nonempty, every chunk but the last
exactly `CHUNK` bytes, the last at most `CHUNK` bytes. -/
inductive Chunked : List (List Byte) → Prop
  | last (p : List Byte) (h : p.length ≤ CHUNK) : Chunked [p]
  | cons (p : List Byte) (ps : List (List Byte)) (h : p.length = CHUNK)
      (hne : ps ≠ []) (hps : Chunked ps) : Chunked (p :: ps)

theorem chunkify_ne_nil (l : List Byte) : chunkify l ≠ [] := by
  rw [chunkify]
  split <;> simp

theorem chunkify_chunked (l : List Byte) : Chunked (chunkify l) := by
  induction l using chunkify.induct with
  | case1 l h =>
    rw [chunkify, if_pos h]
    exact Chunked.last l h
  | case2 l h ih =>
    rw [chunkify, if_neg h]
    exact Chunked.cons _ _ (by simp [CHUNK] at h ⊢; omega) (chunkify_ne_nil _) ih

theorem chunkify_join (l : List Byte) : (chunkify l).flatten = l := by
  induction l using chunkify.induct with
  | case1 l h => rw [chunkify, if_pos h]; simp
  | case2 l h ih =>
    rw [chunkify, if_neg h]
    simp [ih]

theorem chunked_ne_nil {ps : List (List Byte)} (h : Chunked ps) : ps ≠ [] := by
  cases h <;> simp

/-- Modelled from the spec: seal the chunk sequence, binding the running
index and the finality flag into each chunk's tag (spec section 4.5). -/
def encChunks (ck bn : List Byte) : Nat → List (List Byte) → List Byte
  | _, [] => []
  | i, [p] => sealAEAD ck (chunkNonce bn i) (adB i true) p
  | i, p :: ps =>
      sealAEAD ck (chunkNonce bn i) (adB i false) p ++ encChunks ck bn (i + 1) ps

/-- Modelled from the spec: the decrypting side of the streaming engine
(spec section 4.5).  Chunks are consumed in increasing index order; a chunk
shorter than the full size must be the marked-final chunk; a full-size chunk
is first opened as non-final and, if that fails and it ends the stream, as
final; reaching end-of-input without a final chunk is `UnexpectedEndOfStream`
and any authentication failure aborts the stream. -/
def decChunks (ck bn : List Byte) (i : Nat) (rest : List Byte) :
    Except CryptoError (List Byte) :=
  if rest.length = 0 then .error .UnexpectedEndOfStream
  else if rest.length < FULLB then
    match openAEAD ck (chunkNonce bn i) (adB i true) rest with
    | some p => .ok p
    | none => .error .AuthenticationFailure
  else
    match openAEAD ck (chunkNonce bn i) (adB i false) (rest.take FULLB) with
    | some p => (decChunks ck bn (i + 1) (rest.drop FULLB)).map (p ++ ·)
    | none =>
      if rest.length = FULLB then
        match openAEAD ck (chunkNonce bn i) (adB i true) rest with
        | some p => .ok p
        | none => .error .AuthenticationFailure
      else .error .AuthenticationFailure
termination_by rest.length
decreasing_by simp [FULLB, CHUNK, KL] at *; omega


theorem encChunks_single (ck bn : List Byte) (i : Nat) (p : List Byte) :
    encChunks ck bn i [p] = sealAEAD ck (chunkNonce bn i) (adB i true) p := rfl

theorem encChunks_cons (ck bn : List Byte) (i : Nat) (p q : List Byte)
    (ps : List (List Byte)) :
    encChunks ck bn i (p :: q :: ps) =
      sealAEAD ck (chunkNonce bn i) (adB i false) p ++
        encChunks ck bn (i + 1) (q :: ps) := rfl

theorem encChunks_len_pos (ck bn : List Byte) (i : Nat)
    (ps : List (List Byte)) (h : ps ≠ []) :
    0 < (encChunks ck bn i ps).length := by
  match ps with
  | [] => exact absurd rfl h
  | [p] => simp [encChunks_single, seal_length]
  | p :: q :: qs => simp [encChunks_cons, seal_length]

/-- Decrypting a well-formed sealed chunk stream recovers the chunk
concatenation. -/
theorem decChunks_encChunks (ck bn : List Byte) (hck : ck.length = KL)
    (i : Nat) (ps : List (List Byte)) (hps : Chunked ps) :
    decChunks ck bn i (encChunks ck bn i ps) = .ok ps.flatten := by
  induction hps generalizing i with
  | last p hp =>
    rw [encChunks_single]
    have hlen : (sealAEAD ck (chunkNonce bn i) (adB i true) p).length =
        p.length + KL + 1 := by rw [seal_length, hck]
    by_cases hfull : p.length = CHUNK
    · -- full-size final chunk: the non-final attempt fails, the final one opens
      rw [decChunks, if_neg (by omega), if_neg (by rw [hlen]; simp [FULLB]; omega)]
      have htk : (sealAEAD ck (chunkNonce bn i) (adB i true) p).take FULLB =
          sealAEAD ck (chunkNonce bn i) (adB i true) p := by
        apply List.take_of_length_le
        rw [hlen]
        simp [FULLB]
        omega
      rw [htk, openAEAD_seal_flipFin ck (chunkNonce bn i) p i false true hck
        (by simp), if_pos (by rw [hlen]; simp [FULLB]; omega),
        openAEAD_seal _ _ _ _ hck]
      simp
    · -- short final chunk
      have hps : p.length < CHUNK := by
        have := hp
        omega
      rw [decChunks, if_neg (by omega),
        if_pos (by rw [hlen]; simp [FULLB]; omega),
        openAEAD_seal _ _ _ _ hck]
      simp
  | cons p ps h hne hps ih =>
    obtain ⟨q, qs, rfl⟩ : ∃ q qs, ps = q :: qs := by
      cases ps with
      | nil => exact absurd rfl hne
      | cons q qs => exact ⟨q, qs, rfl⟩
    rw [encChunks_cons]
    have hlen : (sealAEAD ck (chunkNonce bn i) (adB i false) p).length = FULLB := by
      rw [seal_length, hck, h]
      rfl
    have hrest := encChunks_len_pos ck bn (i + 1) (q :: qs) (by simp)
    have hlenall : (sealAEAD ck (chunkNonce bn i) (adB i false) p ++
        encChunks ck bn (i + 1) (q :: qs)).length =
        FULLB + (encChunks ck bn (i + 1) (q :: qs)).length := by
      simp [hlen]
    have htk : (sealAEAD ck (chunkNonce bn i) (adB i false) p ++
        encChunks ck bn (i + 1) (q :: qs)).take FULLB =
        sealAEAD ck (chunkNonce bn i) (adB i false) p := by
      rw [← hlen]
      exact takeApp _ _
    have hdr : (sealAEAD ck (chunkNonce bn i) (adB i false) p ++
        encChunks ck bn (i + 1) (q :: qs)).drop FULLB =
        encChunks ck bn (i + 1) (q :: qs) := by
      rw [← hlen]
      exact dropApp _ _
    rw [decChunks, if_neg (by omega), if_neg (by omega), htk,
      openAEAD_seal _ _ _ _ hck, hdr, ih]
    simp [Except.map]


/-- Truncating a sealed chunk stream at a chunk boundary strictly before the
final chunk makes decryption fail with `UnexpectedEndOfStream`. -/
theorem decChunks_truncated (ck bn : List Byte) (hck : ck.length = KL)
    (k i : Nat) (ps : List (List Byte)) (hps : Chunked ps)
    (hk : k < ps.length) :
    decChunks ck bn i ((encChunks ck bn i ps).take (k * FULLB)) =
      .error .UnexpectedEndOfStream := by
  induction k generalizing i ps with
  | zero =>
    rw [decChunks]
    simp
  | succ k ih =>
    obtain ⟨p, q, qs, rfl⟩ : ∃ p q qs, ps = p :: q :: qs := by
      match ps, hk with
      | [p], hk => simp at hk
      | p :: q :: qs, _ => exact ⟨p, q, qs, rfl⟩
    have hfull : p.length = CHUNK := by
      cases hps with
      | cons _ _ h _ _ => exact h
    have hchq : Chunked (q :: qs) := by
      cases hps with
      | cons _ _ _ _ h => exact h
    rw [encChunks_cons]
    have hlen : (sealAEAD ck (chunkNonce bn i) (adB i false) p).length = FULLB := by
      rw [seal_length, hck, hfull]
      rfl
    have hsplit : (sealAEAD ck (chunkNonce bn i) (adB i false) p ++
        encChunks ck bn (i + 1) (q :: qs)).take ((k + 1) * FULLB) =
        sealAEAD ck (chunkNonce bn i) (adB i false) p ++
          (encChunks ck bn (i + 1) (q :: qs)).take (k * FULLB) := by
      have : (k + 1) * FULLB = (sealAEAD ck (chunkNonce bn i)
          (adB i false) p).length + k * FULLB := by
        rw [hlen]
        ring
      rw [this, takeAppGen]
    rw [hsplit]
    have hlenall : (sealAEAD ck (chunkNonce bn i) (adB i false) p ++
        (encChunks ck bn (i + 1) (q :: qs)).take (k * FULLB)).length =
        FULLB + ((encChunks ck bn (i + 1) (q :: qs)).take (k * FULLB)).length := by
      simp [hlen]
    have htk : (sealAEAD ck (chunkNonce bn i) (adB i false) p ++
        (encChunks ck bn (i + 1) (q :: qs)).take (k * FULLB)).take FULLB =
        sealAEAD ck (chunkNonce bn i) (adB i false) p := by
      rw [← hlen]
      exact takeApp _ _
    have hdr : (sealAEAD ck (chunkNonce bn i) (adB i false) p ++
        (encChunks ck bn (i + 1) (q :: qs)).take (k * FULLB)).drop FULLB =
        (encChunks ck bn (i + 1) (q :: qs)).take (k * FULLB) := by
      rw [← hlen]
      exact dropApp _ _
    have hFpos : 0 < FULLB := by simp [FULLB]
    rw [decChunks, if_neg (by omega), if_neg (by omega), htk,
      openAEAD_seal _ _ _ _ hck, hdr,
      ih (i + 1) (q :: qs) hchq (by simpa using Nat.lt_of_succ_lt_succ hk)]
    rfl


/-- Flipping any single byte of a sealed chunk stream makes decryption of the
stream fail (with some error: an authentication failure, or an
end-of-stream error when the flip makes a final full-size chunk pass as a
non-final one). -/
theorem decChunks_tamper (ck bn : List Byte) (hck : ck.length = KL)
    (i : Nat) (ps : List (List Byte)) (hps : Chunked ps)
    (j : Nat) (b : Byte) (hj : j < (encChunks ck bn i ps).length)
    (hb : b ≠ (encChunks ck bn i ps).getD j 0) :
    ∃ e, decChunks ck bn i ((encChunks ck bn i ps).set j b) = .error e := by
  induction hps generalizing i j with
  | last p hp =>
    rw [encChunks_single] at hj hb ⊢
    have hlen : (sealAEAD ck (chunkNonce bn i) (adB i true) p).length =
        p.length + KL + 1 := by rw [seal_length, hck]
    have hlenset : ((sealAEAD ck (chunkNonce bn i) (adB i true) p).set j b).length =
        p.length + KL + 1 := by rw [List.length_set, hlen]
    by_cases hfull : p.length = CHUNK
    · -- tampered full-size final chunk
      have hlF : ((sealAEAD ck (chunkNonce bn i) (adB i true) p).set j b).length =
          FULLB := by rw [hlenset, hfull]; rfl
      have htk : ((sealAEAD ck (chunkNonce bn i) (adB i true) p).set j b).take
          FULLB = (sealAEAD ck (chunkNonce bn i) (adB i true) p).set j b :=
        List.take_of_length_le (by omega)
      have hdrp : ((sealAEAD ck (chunkNonce bn i) (adB i true) p).set j b).drop
          FULLB = [] := List.drop_eq_nil_of_le (by omega)
      rw [decChunks, if_neg (by omega), if_neg (by omega), htk]
      cases hopen : openAEAD ck (chunkNonce bn i) (adB i false)
          ((sealAEAD ck (chunkNonce bn i) (adB i true) p).set j b) with
      | some q =>
        refine ⟨.UnexpectedEndOfStream, ?_⟩
        rw [hdrp, decChunks]
        simp [Except.map]
      | none =>
        refine ⟨.AuthenticationFailure, ?_⟩
        rw [if_pos (by omega),
          openAEAD_tamper ck (chunkNonce bn i) (adB i true) p hck j b hj hb]
    · -- tampered short final chunk
      have hps : p.length < CHUNK := by omega
      rw [decChunks, if_neg (by omega),
        if_pos (by rw [hlenset]; simp [FULLB]; omega),
        openAEAD_tamper ck (chunkNonce bn i) (adB i true) p hck j b hj hb]
      exact ⟨.AuthenticationFailure, rfl⟩
  | cons p ps h hne hps ih =>
    obtain ⟨q, qs, rfl⟩ : ∃ q qs, ps = q :: qs := by
      cases ps with
      | nil => exact absurd rfl hne
      | cons q qs => exact ⟨q, qs, rfl⟩
    rw [encChunks_cons] at hj hb ⊢
    have hlen : (sealAEAD ck (chunkNonce bn i) (adB i false) p).length = FULLB := by
      rw [seal_length, hck, h]
      rfl
    have hrest := encChunks_len_pos ck bn (i + 1) (q :: qs) (by simp)
    by_cases hjr : j < FULLB
    · -- tamper inside the first (non-final) chunk
      have hjr' : j < (sealAEAD ck (chunkNonce bn i) (adB i false) p).length := by
        omega
      have hset : (sealAEAD ck (chunkNonce bn i) (adB i false) p ++
          encChunks ck bn (i + 1) (q :: qs)).set j b =
          (sealAEAD ck (chunkNonce bn i) (adB i false) p).set j b ++
            encChunks ck bn (i + 1) (q :: qs) := setAppLeft _ _ j b hjr'
      have hgd : (sealAEAD ck (chunkNonce bn i) (adB i false) p ++
          encChunks ck bn (i + 1) (q :: qs)).getD j 0 =
          (sealAEAD ck (chunkNonce bn i) (adB i false) p).getD j 0 :=
        getDAppLeft _ _ j 0 hjr'
      rw [hgd] at hb
      have htk : ((sealAEAD ck (chunkNonce bn i) (adB i false) p).set j b ++
          encChunks ck bn (i + 1) (q :: qs)).take FULLB =
          (sealAEAD ck (chunkNonce bn i) (adB i false) p).set j b := by
        rw [show FULLB = ((sealAEAD ck (chunkNonce bn i)
          (adB i false) p).set j b).length by rw [List.length_set, hlen]]
        exact takeApp _ _
      have hlall : ((sealAEAD ck (chunkNonce bn i) (adB i false) p).set j b ++
          encChunks ck bn (i + 1) (q :: qs)).length =
          FULLB + (encChunks ck bn (i + 1) (q :: qs)).length := by
        simp [List.length_set, hlen]
      rw [hset, decChunks, if_neg (by omega), if_neg (by omega), htk,
        openAEAD_tamper ck (chunkNonce bn i) (adB i false) p hck j b hjr' hb,
        if_neg (by omega)]
      exact ⟨.AuthenticationFailure, rfl⟩
    · -- tamper inside the rest of the stream
      obtain ⟨j', rfl⟩ : ∃ j', j = FULLB + j' := ⟨j - FULLB, by omega⟩
      have hset : (sealAEAD ck (chunkNonce bn i) (adB i false) p ++
          encChunks ck bn (i + 1) (q :: qs)).set (FULLB + j') b =
          sealAEAD ck (chunkNonce bn i) (adB i false) p ++
            (encChunks ck bn (i + 1) (q :: qs)).set j' b := by
        rw [← hlen] at hjr ⊢
        exact setAppAt _ _ j' b
      have hgd : (sealAEAD ck (chunkNonce bn i) (adB i false) p ++
          encChunks ck bn (i + 1) (q :: qs)).getD (FULLB + j') 0 =
          (encChunks ck bn (i + 1) (q :: qs)).getD j' 0 := by
        rw [← hlen]
        exact getDAppAt _ _ j' 0
      have hj' : j' < (encChunks ck bn (i + 1) (q :: qs)).length := by
        rw [List.length_append, hlen] at hj
        omega
      rw [hgd] at hb
      obtain ⟨e, he⟩ := ih (i + 1) j' hj' hb
      have htk : (sealAEAD ck (chunkNonce bn i) (adB i false) p ++
          (encChunks ck bn (i + 1) (q :: qs)).set j' b).take FULLB =
          sealAEAD ck (chunkNonce bn i) (adB i false) p := by
        rw [← hlen]
        exact takeApp _ _
      have hdrp : (sealAEAD ck (chunkNonce bn i) (adB i false) p ++
          (encChunks ck bn (i + 1) (q :: qs)).set j' b).drop FULLB =
          (encChunks ck bn (i + 1) (q :: qs)).set j' b := by
        rw [← hlen]
        exact dropApp _ _
      have hlall : (sealAEAD ck (chunkNonce bn i) (adB i false) p ++
          (encChunks ck bn (i + 1) (q :: qs)).set j' b).length =
          FULLB + (encChunks ck bn (i + 1) (q :: qs)).length := by
        simp [List.length_set, hlen]
      refine ⟨e, ?_⟩
      rw [hset, decChunks, if_neg (by omega), if_neg (by omega), htk,
        openAEAD_seal _ _ _ _ hck, hdrp, he]
      rfl


section SetHelpers

variable {α : Type _}

theorem getDSetOther (l : List α) (i j : Nat) (b d : α) (h : i ≠ j) :
    (l.set i b).getD j d = l.getD j d := by
  induction l generalizing i j with
  | nil => simp
  | cons a t ih =>
    cases i with
    | zero =>
      cases j with
      | zero => exact absurd rfl h
      | succ j => rfl
    | succ i =>
      cases j with
      | zero => rfl
      | succ j =>
        simp only [List.set, List.getD_cons_succ]
        exact ih i j (by omega)

theorem takeSetLt (l : List α) (i n : Nat) (b : α) (h : i < n) :
    (l.set i b).take n = (l.take n).set i b := by
  induction l generalizing i n with
  | nil => simp
  | cons a t ih =>
    cases i with
    | zero =>
      cases n with
      | zero => omega
      | succ n => simp [List.set, List.take]
    | succ i =>
      cases n with
      | zero => omega
      | succ n =>
        simp only [List.set, List.take]
        rw [ih i n (by omega)]

theorem takeSetGe (l : List α) (i n : Nat) (b : α) (h : n ≤ i) :
    (l.set i b).take n = l.take n := by
  induction l generalizing i n with
  | nil => simp
  | cons a t ih =>
    cases i with
    | zero =>
      cases n with
      | zero => simp
      | succ n => omega
    | succ i =>
      cases n with
      | zero => simp
      | succ n =>
        simp only [List.set, List.take]
        rw [ih i n (by omega)]

theorem dropSetLt (l : List α) (i n : Nat) (b : α) (h : i < n) :
    (l.set i b).drop n = l.drop n := by
  induction l generalizing i n with
  | nil => simp
  | cons a t ih =>
    cases i with
    | zero =>
      cases n with
      | zero => omega
      | succ n => simp [List.set, List.drop]
    | succ i =>
      cases n with
      | zero => omega
      | succ n =>
        simp only [List.set, List.drop]
        exact ih i n (by omega)

theorem getDTake (l : List α) (i n : Nat) (d : α) (h : i < n) :
    (l.take n).getD i d = l.getD i d := by
  induction l generalizing i n with
  | nil => simp
  | cons a t ih =>
    cases n with
    | zero => omega
    | succ n =>
      cases i with
      | zero => rfl
      | succ i =>
        simp only [List.take, List.getD_cons_succ]
        exact ih i n (by omega)

end SetHelpers

/-- Events observed while decrypting; they record the order of header
verification relative to KDF and key-slot work. -/
inductive Ev where
  | headerRejected
  | headerVerified
  | kdfRun
  | slotOpen
  deriving DecidableEq, Repr

/-- Modelled from the spec: the password-hardening KDF of the byte-level wire
model — argon2-style, producing a fixed-length (`KL`-byte) root key
deterministically from passphrase, salt and cost parameters (spec
section 4.2). -/
def kdfB (passphrase salt : List Byte) (prm : Params) : List Byte :=
  [sumF passphrase + sumF salt + prm.mem,
   (passphrase.length : Byte) + prm.time]

theorem kdfB_length (p s : List Byte) (prm : Params) :
    (kdfB p s prm).length = KL := rfl

/-- Header length of the model wire format. -/
def HL : Nat := 21

/-- Modelled from the spec: the serialized header — magic, version, cipher
and KDF identifiers, KDF parameters, salt, base nonce, slot count, the single
key slot (slot nonce and sealed content key), and the header's own
authentication tag over all preceding fields (spec sections 4.4 and 6). -/
def headerBytes (prm : Params) (salt bn sn slotSeal : List Byte) : List Byte :=
  ([77, 88, VER, CIPH, KDFID] ++ encodeParams prm ++ salt ++ bn ++
      [1] ++ sn ++ slotSeal) ++
    [sumF ([77, 88, VER, CIPH, KDFID] ++ encodeParams prm ++ salt ++ bn ++
      [1] ++ sn ++ slotSeal)]

/-- Modelled from the spec: `encrypt(P, S)` — emit the serialized header,
then the sealed chunk stream; salt, base nonce, content key and slot nonce
are drawn from the CSPRNG `rng` (spec sections 4.5 and 6). -/
def encrypt (P S : List Byte) (rng : Nat → Byte) : List Byte :=
  headerBytes paramsDefault [rng 0, rng 1] [rng 2, rng 3] [rng 6, rng 7]
      (sealAEAD (kdfB S [rng 0, rng 1] paramsDefault) [rng 6, rng 7] adSlot
        [rng 4, rng 5]) ++
    encChunks [rng 4, rng 5] [rng 2, rng 3] 0 (chunkify P)

/-- Modelled from the spec: `decrypt(C, S)` instrumented with its event
trace.  Per spec section 4.4 the header's own tag is verified first — before
any KDF work or key-slot attempt — then the fixed fields are validated, the
root key is derived, the single key slot is opened, and finally the chunk
stream is decrypted (spec section 4.5). -/
def decryptT (C S : List Byte) : Except CryptoError (List Byte) × List Ev :=
  if C.length < HL then (.error .Truncated, [])
  else if C.getD 20 0 ≠ sumF (C.take 20) then
    (.error .HeaderTampered, [.headerRejected])
  else if C.take 2 ≠ [77, 88] then (.error .NotAContainer, [.headerVerified])
  else if C.getD 2 0 ≠ VER then
    (.error .UnsupportedVersion, [.headerVerified])
  else if C.getD 3 0 ≠ CIPH then
    (.error .UnsupportedVersion, [.headerVerified])
  else if C.getD 4 0 ≠ KDFID then
    (.error .UnsupportedVersion, [.headerVerified])
  else if C.getD 12 0 ≠ 1 then (.error .HeaderTampered, [.headerVerified])
  else
    match openAEAD (kdfB S ((C.drop 8).take 2) ⟨C.getD 5 0, C.getD 6 0, C.getD 7 0⟩)
        ((C.drop 13).take 2) adSlot ((C.drop 15).take 5) with
    | none => (.error .AuthenticationFailure, [.headerVerified, .kdfRun, .slotOpen])
    | some ck =>
        (decChunks ck ((C.drop 10).take 2) 0 (C.drop HL),
         [.headerVerified, .kdfRun, .slotOpen])

/-- Modelled from the spec: `decrypt(C, S)` — the container-decryption entry
point of the command surface (spec section 6). -/
def decrypt (C S : List Byte) : Except CryptoError (List Byte) :=
  (decryptT C S).1


theorem sealAEAD_pair (k0 k1 x y : Byte) (n a : List Byte) :
    sealAEAD [k0, k1] n a [x, y] =
      [x + maskOf [k0, k1] n, y + maskOf [k0, k1] n, k0, k1,
       sumF (n ++ a ++ [x + maskOf [k0, k1] n, y + maskOf [k0, k1] n])] := by
  simp [sealAEAD]

theorem kdfB_eq (S salt : List Byte) (prm : Params) :
    kdfB S salt prm =
      [sumF S + sumF salt + prm.mem, (S.length : Byte) + prm.time] := rfl

/-- Evaluating the instrumented decryptor on a syntactically well-formed
container: the header parses and verifies, so the key slot is opened and, on
success, the chunk stream is decrypted. -/
theorem decryptT_app (S tail : List Byte) (prm : Params)
    (s0 s1 b0 b1 n0 n1 t0 t1 t2 t3 t4 : Byte) :
    decryptT (headerBytes prm [s0, s1] [b0, b1] [n0, n1]
        [t0, t1, t2, t3, t4] ++ tail) S =
      match openAEAD (kdfB S [s0, s1] prm) [n0, n1] adSlot
          [t0, t1, t2, t3, t4] with
      | none => (.error .AuthenticationFailure,
          [.headerVerified, .kdfRun, .slotOpen])
      | some ck =>
          (decChunks ck [b0, b1] 0 tail,
           [.headerVerified, .kdfRun, .slotOpen]) := by
  simp [decryptT, headerBytes, encodeParams, HL, List.getD]

/-- Flipping any byte of the first 21 container bytes (the header region)
makes the instrumented decryptor reject the header. -/
theorem decryptT_headerFlip (C S : List Byte) (hC : HL ≤ C.length)
    (hvalid : C.getD 20 0 = sumF (C.take 20))
    (i : Nat) (hi : i ≤ 20) (b : Byte) (hb : b ≠ C.getD i 0) :
    decryptT (C.set i b) S = (.error .HeaderTampered, [.headerRejected]) := by
  have hlen : (C.set i b).length = C.length := by simp
  have hcond : (C.set i b).getD 20 0 ≠ sumF ((C.set i b).take 20) := by
    rcases Nat.lt_or_ge i 20 with hlt | hge
    · rw [getDSetOther C i 20 b 0 (by omega), hvalid, takeSetLt C i 20 b hlt]
      intro h
      have h20 : (C.take 20).length = 20 := by
        rw [List.length_take]
        simp [HL] at hC
        omega
      have hi20 : i < (C.take 20).length := by omega
      refine sumF_set_ne (C.take 20) i b hi20 ?_ h.symm
      rw [← getDOfGetElem _ _ 0 hi20, getDTake C i 20 0 hlt]
      exact hb
    · have h20 : i = 20 := by omega
      subst h20
      rw [getDSetSelf C 20 b 0 (by simp [HL] at hC; omega),
        takeSetGe C 20 20 b le_rfl]
      rw [hvalid] at hb
      exact hb
  rw [decryptT, if_neg (by omega), if_pos hcond]

/-- A container produced by `encrypt` is long enough and carries a valid
header tag. -/
theorem encrypt_valid (P S : List Byte) (rng : Nat → Byte) :
    HL ≤ (encrypt P S rng).length ∧
      (encrypt P S rng).getD 20 0 = sumF ((encrypt P S rng).take 20) := by
  rw [encrypt]
  constructor
  · simp [headerBytes, encodeParams, sealAEAD, kdfB, HL]
  · simp [headerBytes, encodeParams, sealAEAD, kdfB, List.getD]

theorem encrypt_header_length (S : List Byte) (rng : Nat → Byte) :
    (headerBytes paramsDefault [rng 0, rng 1] [rng 2, rng 3] [rng 6, rng 7]
      (sealAEAD (kdfB S [rng 0, rng 1] paramsDefault) [rng 6, rng 7] adSlot
        [rng 4, rng 5])).length = HL := by
  simp [headerBytes, encodeParams, sealAEAD, kdfB, HL]

/-- Decryption of an `encrypt` output whose chunk region was replaced by
`tail` (the header is intact, so the slot opens and the chunk decryptor runs
on `tail` under the right content key and base nonce). -/
theorem decrypt_with_tail (S tail : List Byte) (rng : Nat → Byte) :
    decrypt (headerBytes paramsDefault [rng 0, rng 1] [rng 2, rng 3]
        [rng 6, rng 7]
        (sealAEAD (kdfB S [rng 0, rng 1] paramsDefault) [rng 6, rng 7] adSlot
          [rng 4, rng 5]) ++ tail) S =
      decChunks [rng 4, rng 5] [rng 2, rng 3] 0 tail := by
  rw [decrypt, kdfB_eq, sealAEAD_pair, decryptT_app, ← sealAEAD_pair,
    ← kdfB_eq, openAEAD_seal _ _ _ _ (kdfB_length S [rng 0, rng 1] paramsDefault)]


/-- Modelled from the spec: `Protected<T>` — the owner of a sensitive byte
buffer, whose contents are reachable only through the explicit `expose`
accessor (spec section 4.1; the `protected` module body is absent from the
source slice). -/
structure Protected where
  expose : List Byte
  deriving DecidableEq, Repr

/-- Modelled from the spec: `derive(passphrase, salt, params)` of the
value-level model (spec section 4.2) — deterministic for identical inputs
and, as the spec's wrong-passphrase property stipulates, yielding root keys
that distinguish distinct passphrases.  The derived key value records the
passphrase together with the fixed-length salt and parameter encoding. -/
def derive (passphrase : Protected) (salt : List Byte) (prm : Params) :
    Protected :=
  ⟨passphrase.expose ++ salt ++ encodeParams prm⟩

/-- Modelled from the spec: a sealed AEAD box of the value-level model — an
ideal AEAD whose ciphertext value determines the key, nonce, associated data
and plaintext it was sealed with (spec section 4.2). -/
structure SealedA where
  key : List Byte
  nonce : List Byte
  ad : List Byte
  pt : List Byte
  deriving DecidableEq, Repr

/-- Modelled from the spec: ideal AEAD open — succeeds exactly when key,
nonce and associated data match those used at sealing time; otherwise it is
an opaque authentication failure. -/
def openA (k n a : List Byte) (s : SealedA) : Option (List Byte) :=
  if s.key = k ∧ s.nonce = n ∧ s.ad = a then some s.pt else none

/-- Modelled from the spec: the container header of the value-level model —
version, KDF parameters, salt, base nonce, and the key slot holding the
sealed content key (spec section 3, "Header"/"KeySlot"). -/
structure HeaderA where
  version : Byte
  prm : Params
  salt : List Byte
  baseNonce : List Byte
  slot : SealedA
  deriving DecidableEq, Repr

/-- Modelled from the spec: a container of the value-level model: header
plus authenticated chunk sequence. -/
structure ContainerA where
  header : HeaderA
  chunks : List SealedA
  deriving DecidableEq, Repr

/-- Seal each chunk under the content key, binding index and finality. -/
def chunkSealsA (ck bn : List Byte) : Nat → List (List Byte) → List SealedA
  | _, [] => []
  | i, [p] => [⟨ck, chunkNonce bn i, adB i true, p⟩]
  | i, p :: ps =>
      ⟨ck, chunkNonce bn i, adB i false, p⟩ :: chunkSealsA ck bn (i + 1) ps

/-- Modelled from the spec: encryption in the value-level model — derive the
root key from the passphrase and fresh salt, wrap the fresh content key `ck`
into the key slot under it, seal the chunks (spec sections 4.3 and 4.5). -/
def encryptA (P S : List Byte) (salt bn sn ck : List Byte) : ContainerA :=
  { header := { version := VER, prm := paramsDefault, salt := salt,
                baseNonce := bn,
                slot := ⟨(derive ⟨S⟩ salt paramsDefault).expose, sn, adSlot,
                  ck⟩ },
    chunks := chunkSealsA ck bn 0 (chunkify P) }

/-- The chunk-decrypting loop of the value-level model. -/
def decChunksA (ck bn : List Byte) :
    Nat → List SealedA → Except CryptoError (List Byte)
  | _, [] => .error .UnexpectedEndOfStream
  | i, [c] =>
      match openA ck (chunkNonce bn i) (adB i true) c with
      | some p => .ok p
      | none => .error .AuthenticationFailure
  | i, c :: cs =>
      match openA ck (chunkNonce bn i) (adB i false) c with
      | some p => (decChunksA ck bn (i + 1) cs).map (p ++ ·)
      | none => .error .AuthenticationFailure

/-- Modelled from the spec: decryption in the value-level model — re-derive
the root key from the supplied passphrase and the stored salt/params, open
the key slot (failure is an opaque `AuthenticationFailure`), then decrypt
the chunks (spec sections 4.3-4.5). -/
def decryptA (c : ContainerA) (S : List Byte) :
    Except CryptoError (List Byte) :=
  if c.header.version ≠ VER then .error .UnsupportedVersion
  else
    match openA (derive ⟨S⟩ c.header.salt c.header.prm).expose
        c.header.slot.nonce c.header.slot.ad c.header.slot with
    | none => .error .AuthenticationFailure
    | some ck => decChunksA ck c.header.baseNonce 0 c.chunks

/-- Modelled from the spec: the operations an owner may perform on protected
memory over its lifetime (spec sections 4.1 and 9): creation, explicit
exposure, resize (which moves the buffer), consumption via `into_inner`, and
destruction. -/
inductive POp where
  | create (bytes : List Byte)
  | expose (id : Nat)
  | resize (id : Nat) (newBytes : List Byte)
  | intoInner (id : Nat)
  | destroy (id : Nat)

/-- The instrumented memory: every region ever allocated (so released
regions can still be inspected), and which of them have been released. -/
structure PMem where
  regions : List (List Byte)
  released : List Bool
  deriving Repr

/-- The initial, empty instrumented memory. -/
def PMem.empty : PMem := ⟨[], []⟩

/-- Modelled from the spec: one step of a protected-memory owner.  Every
release path — destruction, consumption by `into_inner`, and the old buffer
of a move/resize — overwrites the region with zeros before releasing it
(spec sections 4.1 and 9). -/
def pStep (m : PMem) : POp → PMem
  | .create bs => ⟨m.regions ++ [bs], m.released ++ [false]⟩
  | .expose _ => m
  | .resize id newBytes =>
      if m.released.getD id true = false then
        ⟨(m.regions.set id
            (List.replicate (m.regions.getD id []).length 0)) ++ [newBytes],
         (m.released.set id true) ++ [false]⟩
      else m
  | .intoInner id =>
      if m.released.getD id true = false then
        ⟨m.regions.set id (List.replicate (m.regions.getD id []).length 0),
         m.released.set id true⟩
      else m
  | .destroy id =>
      if m.released.getD id true = false then
        ⟨m.regions.set id (List.replicate (m.regions.getD id []).length 0),
         m.released.set id true⟩
      else m

/-- Run a whole lifetime of protected-memory operations. -/
def pRun (ops : List POp) : PMem := ops.foldl pStep PMem.empty

/-- Shallow embedding of `FFmpegDict` (crates/ffmpeg/src/dict.rs lines
13-17): the raw `AVDictionary` pointer (`0` models NULL) and the `managed`
flag fixed at construction. -/
structure FFmpegDict where
  dict : Nat
  managed : Bool
  deriving DecidableEq, Repr

/-- `FFmpegDict::new` (dict.rs lines 20-31): wrapping a borrowed dictionary
keeps its pointer and is unmanaged; `None` starts with a NULL pointer and
`managed = true`. -/
def FFmpegDict.new : Option Nat → FFmpegDict
  | some p => { dict := p, managed := false }
  | none => { dict := 0, managed := true }

/-- `FFmpegDict::set` (dict.rs lines 46-53): `av_dict_set` may reallocate
through `&mut self.dict`, modelled by the FFI-provided new pointer `nd` and
return code `ret`; `check_error` turns a negative code into `Err`.  The
pointer update happens either way; the code only decides the `Result`. -/
def FFmpegDict.set (d : FFmpegDict) (nd : Nat) (ret : Int) :
    FFmpegDict × Except String Unit :=
  ({ d with dict := nd },
   if ret < 0 then .error "Fail to set dictionary key-value pair"
   else .ok ())

/-- `FFmpegDict::remove` (dict.rs lines 55-62): the same `av_dict_set` call
shape with a NULL value and the same error message. -/
def FFmpegDict.remove (d : FFmpegDict) (nd : Nat) (ret : Int) :
    FFmpegDict × Except String Unit :=
  ({ d with dict := nd },
   if ret < 0 then .error "Fail to set dictionary key-value pair"
   else .ok ())

/-- `FFmpegDict::get` (dict.rs lines 37-44): a pure lookup through
`av_dict_get` (modelled by the lookup oracle `entries`); takes `&self`, so
the state is returned unchanged. -/
def FFmpegDict.get (d : FFmpegDict)
    (entries : Nat → String → Option String) (key : String) :
    Option String × FFmpegDict :=
  (entries d.dict key, d)

/-- `Drop for FFmpegDict` (dict.rs lines 65-72): calls `av_dict_free` iff
`managed` and the pointer is non-NULL, then nulls the pointer.  The boolean
records whether `av_dict_free` was called. -/
def FFmpegDict.drop (d : FFmpegDict) : Bool × FFmpegDict :=
  if d.managed = true ∧ d.dict ≠ 0 then (true, { d with dict := 0 })
  else (false, d)

/-- The operations available on a wrapped dictionary between construction
and drop. -/
inductive DictOp where
  | setOp (nd : Nat) (ret : Int)
  | removeOp (nd : Nat) (ret : Int)
  | getOp (entries : Nat → String → Option String) (key : String)

/-- Apply one dictionary operation to the wrapper state. -/
def applyDictOp (d : FFmpegDict) : DictOp → FFmpegDict
  | .setOp nd ret => (d.set nd ret).1
  | .removeOp nd ret => (d.remove nd ret).1
  | .getOp entries key => (d.get entries key).2

/-- Run a sequence of dictionary operations. -/
def runDictOps (d : FFmpegDict) (ops : List DictOp) : FFmpegDict :=
  ops.foldl applyDictOp d


/-- Shallow embedding of `MediaMetadata` (the ffmpeg crate's model): exactly
the fields written by the `From<FFmpegDict>` conversion of dict.rs lines
117-178.  Timestamp and numeric field contents are abstract (`Nat`/`Int`),
fixed by the parser oracles. -/
structure MediaMetadata where
  album : Option String := none
  album_artist : Option String := none
  artist : Option String := none
  comment : Option String := none
  composer : Option String := none
  copyright : Option String := none
  creation_time : Option Nat := none
  date : Option Nat := none
  disc : Option Int := none
  encoder : Option String := none
  encoded_by : Option String := none
  filename : Option String := none
  genre : Option String := none
  language : Option String := none
  performer : Option String := none
  publisher : Option String := none
  service_name : Option String := none
  service_provider : Option String := none
  title : Option String := none
  track : Option Int := none
  variant_bitrate : Option Int := none
  custom : List (String × String) := []
  deriving DecidableEq, Repr

/-- `HashMap::insert` on the association-list model of the `custom` map:
replace an existing binding for the key, or append a new one. -/
def insertKV (m : List (String × String)) (k v : String) :
    List (String × String) :=
  if m.any (fun p => p.1 = k) then
    m.map (fun p => if p.1 = k then (k, v) else p)
  else m ++ [(k, v)]

/-- One iteration of the `From<FFmpegDict> for MediaMetadata` loop (dict.rs
lines 121-174).  `p2822` and `p3339` model `DateTime::parse_from_rfc2822` /
`parse_from_rfc3339` composed with `.into()`; `pDisc`, `pTrack`, `pBitrate`
model `str::parse` at the three numeric fields.  An entry whose value is
absent is skipped. -/
def applyEntry (p2822 p3339 : String → Option Nat)
    (pDisc pTrack pBitrate : String → Option Int)
    (m : MediaMetadata) : String × Option String → MediaMetadata
  | (_, none) => m
  | (key, some value) =>
    if key = "album" then { m with album := some value }
    else if key = "album_artist" then { m with album_artist := some value }
    else if key = "artist" then { m with artist := some value }
    else if key = "comment" then { m with comment := some value }
    else if key = "composer" then { m with composer := some value }
    else if key = "copyright" then { m with copyright := some value }
    else if key = "creation_time" then
      match p2822 value with
      | some t => { m with creation_time := some t }
      | none =>
        match p3339 value with
        | some t => { m with creation_time := some t }
        | none => m
    else if key = "date" then
      match p2822 value with
      | some t => { m with date := some t }
      | none =>
        match p3339 value with
        | some t => { m with date := some t }
        | none => m
    else if key = "disc" then
      match pDisc value with
      | some v => { m with disc := some v }
      | none => m
    else if key = "encoder" then { m with encoder := some value }
    else if key = "encoded_by" then { m with encoded_by := some value }
    else if key = "filename" then { m with filename := some value }
    else if key = "genre" then { m with genre := some value }
    else if key = "language" then { m with language := some value }
    else if key = "performer" then { m with performer := some value }
    else if key = "publisher" then { m with publisher := some value }
    else if key = "service_name" then { m with service_name := some value }
    else if key = "service_provider" then
      { m with service_provider := some value }
    else if key = "title" then { m with title := some value }
    else if key = "track" then
      match pTrack value with
      | some v => { m with track := some v }
      | none => m
    else if key = "variant_bitrate" then
      match pBitrate value with
      | some v => { m with variant_bitrate := some v }
      | none => m
    else { m with custom := insertKV m.custom key value }

/-- The whole `From<FFmpegDict> for MediaMetadata` conversion (dict.rs lines
117-178): fold the per-entry step over the dictionary's iteration order,
starting from `MediaMetadata::default()`.  It is a total function — no
entry makes the conversion fail. -/
def mediaMetadataOfDict (p2822 p3339 : String → Option Nat)
    (pDisc pTrack pBitrate : String → Option Int)
    (entries : List (String × Option String)) : MediaMetadata :=
  entries.foldl (applyEntry p2822 p3339 pDisc pTrack pBitrate) {}

/-- The keys the conversion recognizes with dedicated fields (the `match`
arms of dict.rs lines 123-168 other than the catch-all). -/
def recognizedKeys : List String :=
  ["album", "album_artist", "artist", "comment", "composer", "copyright",
   "creation_time", "date", "disc", "encoder", "encoded_by", "filename",
   "genre", "language", "performer", "publisher", "service_name",
   "service_provider", "title", "track", "variant_bitrate"]


theorem getDAppRight {α : Type _} (x y : List α) (j : Nat) (d : α)
    (h : x.length ≤ j) : (x ++ y).getD j d = y.getD (j - x.length) d := by
  obtain ⟨j', rfl⟩ : ∃ j', j = x.length + j' := ⟨j - x.length, by omega⟩
  rw [getDAppAt]
  congr 1
  omega

theorem getDOutside {α : Type _} (l : List α) (j : Nat) (d : α)
    (h : l.length ≤ j) : l.getD j d = d := by
  rw [List.getD_eq_getElem?_getD, List.getElem?_eq_none (by omega)]
  rfl

/-- All bytes of the list are zero. -/
def allZero (l : List Byte) : Prop := ∀ x ∈ l, x = 0

/-- The zeroization invariant of the instrumented memory: region and release
records line up, and every released region reads back as all zeros. -/
def PMem.wiped (m : PMem) : Prop :=
  m.regions.length = m.released.length ∧
    ∀ id, m.released.getD id false = true → allZero (m.regions.getD id [])

theorem pStep_wiped (m : PMem) (hm : m.wiped) (op : POp) :
    (pStep m op).wiped := by
  obtain ⟨hlen, hz⟩ := hm
  cases op with
  | create bs =>
    refine ⟨by simp [pStep, hlen], ?_⟩
    intro id hid
    rcases Nat.lt_or_ge id m.released.length with hidl | hidl
    · rw [pStep] at hid ⊢
      rw [getDAppLeft _ _ id _ hidl] at hid
      rw [getDAppLeft _ _ id _ (by omega)]
      exact hz id hid
    · rcases Nat.lt_or_ge id (m.released.length + 1) with hid1 | hid1
      · have : id = m.released.length := by omega
        subst this
        rw [pStep] at hid
        rw [getDAppRight _ _ _ _ (le_refl _)] at hid
        simp at hid
      · rw [pStep] at hid
        rw [getDOutside _ _ _ (by simp; omega)] at hid
        exact absurd hid (by simp)
  | expose id' => exact ⟨hlen, hz⟩
  | resize id' newBytes =>
    by_cases halive : m.released.getD id' true = false
    · have hid'len : id' < m.released.length := by
        by_contra hcon
        rw [getDOutside _ _ _ (by omega)] at halive
        exact absurd halive (by simp)
      rw [pStep, if_pos halive]
      refine ⟨by simp [hlen], ?_⟩
      intro id hid
      rcases Nat.lt_or_ge id m.released.length with hidl | hidl
      · rw [getDAppLeft _ _ id _ (by simp; omega)] at hid ⊢
        rcases eq_or_ne id id' with rfl | hne
        · rw [getDSetSelf _ _ _ _ (by omega)]
          intro x hx
          exact List.eq_of_mem_replicate hx
        · rw [getDSetOther _ _ _ _ _ (Ne.symm hne)] at hid
          rw [getDSetOther _ _ _ _ _ (Ne.symm hne)]
          exact hz id hid
      · rcases Nat.lt_or_ge id (m.released.length + 1) with hid1 | hid1
        · have : id = m.released.length := by omega
          subst this
          rw [getDAppRight _ _ _ _ (by simp)] at hid
          simp at hid
        · rw [getDOutside _ _ _ (by simp; omega)] at hid
          exact absurd hid (by simp)
    · rw [pStep, if_neg halive]
      exact ⟨hlen, hz⟩
  | intoInner id' =>
    by_cases halive : m.released.getD id' true = false
    · have hid'len : id' < m.released.length := by
        by_contra hcon
        rw [getDOutside _ _ _ (by omega)] at halive
        exact absurd halive (by simp)
      rw [pStep, if_pos halive]
      refine ⟨by simp [hlen], ?_⟩
      intro id hid
      rcases eq_or_ne id id' with rfl | hne
      · rw [getDSetSelf _ _ _ _ (by omega)]
        intro x hx
        exact List.eq_of_mem_replicate hx
      · rw [getDSetOther _ _ _ _ _ (Ne.symm hne)] at hid
        rw [getDSetOther _ _ _ _ _ (Ne.symm hne)]
        exact hz id hid
    · rw [pStep, if_neg halive]
      exact ⟨hlen, hz⟩
  | destroy id' =>
    by_cases halive : m.released.getD id' true = false
    · have hid'len : id' < m.released.length := by
        by_contra hcon
        rw [getDOutside _ _ _ (by omega)] at halive
        exact absurd halive (by simp)
      rw [pStep, if_pos halive]
      refine ⟨by simp [hlen], ?_⟩
      intro id hid
      rcases eq_or_ne id id' with rfl | hne
      · rw [getDSetSelf _ _ _ _ (by omega)]
        intro x hx
        exact List.eq_of_mem_replicate hx
      · rw [getDSetOther _ _ _ _ _ (Ne.symm hne)] at hid
        rw [getDSetOther _ _ _ _ _ (Ne.symm hne)]
        exact hz id hid
    · rw [pStep, if_neg halive]
      exact ⟨hlen, hz⟩

theorem pRun_wiped_aux (ops : List POp) :
    ∀ m : PMem, m.wiped → (ops.foldl pStep m).wiped := by
  induction ops with
  | nil => exact fun m hm => hm
  | cons op ops ih => exact fun m hm => ih _ (pStep_wiped m hm op)

theorem pRun_wiped (ops : List POp) : (pRun ops).wiped :=
  pRun_wiped_aux ops PMem.empty ⟨rfl, by intro id hid; simp [PMem.empty] at hid⟩


theorem applyDictOp_managed (d : FFmpegDict) (op : DictOp) :
    (applyDictOp d op).managed = d.managed := by
  cases op <;> rfl

theorem runDictOps_managed (d : FFmpegDict) (ops : List DictOp) :
    (runDictOps d ops).managed = d.managed := by
  induction ops generalizing d with
  | nil => rfl
  | cons op ops ih =>
    show (List.foldl applyDictOp (applyDictOp d op) ops).managed = d.managed
    rw [show List.foldl applyDictOp (applyDictOp d op) ops =
      runDictOps (applyDictOp d op) ops from rfl]
    rw [ih, applyDictOp_managed]

theorem derive_inj_passphrase (S1 S2 salt : List Byte) (prm : Params)
    (h : (derive ⟨S1⟩ salt prm).expose = (derive ⟨S2⟩ salt prm).expose) :
    S1 = S2 := by
  have h' : S1 ++ (salt ++ encodeParams prm) =
      S2 ++ (salt ++ encodeParams prm) := by
    simpa [derive, List.append_assoc] using h
  exact List.append_cancel_right h'


/-- C1: for every plaintext `P` and every passphrase `S`, decrypting the
container produced by encrypting `P` under `S`, with the same passphrase
`S`, returns exactly `P`. -/
theorem encrypt_decrypt_roundtrip (P S : List Byte) (rng : Nat → Byte) :
    decrypt (encrypt P S rng) S = .ok P := by
  rw [encrypt, decrypt_with_tail S _ rng,
    decChunks_encChunks [rng 4, rng 5] [rng 2, rng 3] (by rfl) 0 _
      (chunkify_chunked P), chunkify_join]

/-- C2: for every plaintext and every pair of distinct passphrases `S1 ≠ S2`,
decrypting the container encrypted under `S1` with passphrase `S2` fails
with `AuthenticationFailure` — it never returns plaintext. -/
theorem wrong_passphrase_rejected (P S1 S2 salt bn sn ck : List Byte)
    (h : S1 ≠ S2) :
    decryptA (encryptA P S1 salt bn sn ck) S2 =
      .error .AuthenticationFailure := by
  have hkey : (derive ⟨S1⟩ salt paramsDefault).expose ≠
      (derive ⟨S2⟩ salt paramsDefault).expose :=
    fun hc => h (derive_inj_passphrase S1 S2 salt paramsDefault hc)
  simp [decryptA, encryptA, openA, hkey]

/-- Witness for C2 at a concrete pair of distinct passphrases. -/
theorem wrong_passphrase_rejected_witness :
    [2] ≠ [3] ∧
      decryptA (encryptA [1] [2] [3, 4] [5, 6] [7, 8] [9, 9]) [3] =
        .error .AuthenticationFailure :=
  ⟨by decide,
   wrong_passphrase_rejected [1] [2] [3] [3, 4] [5, 6] [7, 8] [9, 9]
     (by decide)⟩


/-- C3: for every container produced by `encrypt` and every byte position in
it, decrypting the container with any single byte changed to a different
value fails with an error — altered data is never silently accepted. -/
theorem single_byte_tamper_fails (P S : List Byte) (rng : Nat → Byte)
    (i : Nat) (b : Byte) (hi : i < (encrypt P S rng).length)
    (hb : b ≠ (encrypt P S rng).getD i 0) :
    ∃ e, decrypt ((encrypt P S rng).set i b) S = .error e := by
  rcases Nat.lt_or_ge i HL with hih | hih
  · obtain ⟨hlen, hvalid⟩ := encrypt_valid P S rng
    refine ⟨.HeaderTampered, ?_⟩
    rw [decrypt,
      decryptT_headerFlip _ S hlen hvalid i (by simp [HL] at hih; omega) b hb]
  · obtain ⟨j, rfl⟩ : ∃ j, i = HL + j := ⟨i - HL, by omega⟩
    have hhl := encrypt_header_length S rng
    rw [encrypt] at hi hb ⊢
    have hset : (headerBytes paramsDefault [rng 0, rng 1] [rng 2, rng 3]
        [rng 6, rng 7] (sealAEAD (kdfB S [rng 0, rng 1] paramsDefault)
          [rng 6, rng 7] adSlot [rng 4, rng 5]) ++
        encChunks [rng 4, rng 5] [rng 2, rng 3] 0 (chunkify P)).set
          (HL + j) b =
        headerBytes paramsDefault [rng 0, rng 1] [rng 2, rng 3]
          [rng 6, rng 7] (sealAEAD (kdfB S [rng 0, rng 1] paramsDefault)
            [rng 6, rng 7] adSlot [rng 4, rng 5]) ++
          (encChunks [rng 4, rng 5] [rng 2, rng 3] 0 (chunkify P)).set j b := by
      rw [← hhl]
      exact setAppAt _ _ j b
    have hgd : (headerBytes paramsDefault [rng 0, rng 1] [rng 2, rng 3]
        [rng 6, rng 7] (sealAEAD (kdfB S [rng 0, rng 1] paramsDefault)
          [rng 6, rng 7] adSlot [rng 4, rng 5]) ++
        encChunks [rng 4, rng 5] [rng 2, rng 3] 0 (chunkify P)).getD
          (HL + j) 0 =
        (encChunks [rng 4, rng 5] [rng 2, rng 3] 0 (chunkify P)).getD j 0 := by
      rw [← hhl]
      exact getDAppAt _ _ j 0
    have hjlen : j <
        (encChunks [rng 4, rng 5] [rng 2, rng 3] 0 (chunkify P)).length := by
      rw [List.length_append, hhl] at hi
      omega
    rw [hset, decrypt_with_tail]
    exact decChunks_tamper [rng 4, rng 5] [rng 2, rng 3] (by rfl) 0 _
      (chunkify_chunked P) j b hjlen (by rw [hgd] at hb; exact hb)

/-- Witness for C3: flipping the first container byte of a concrete
encryption makes decryption fail. -/
theorem single_byte_tamper_fails_witness :
    0 < (encrypt [1, 2, 3] [9] (fun _ => 0)).length ∧
      (5 : Byte) ≠ (encrypt [1, 2, 3] [9] (fun _ => 0)).getD 0 0 ∧
      ∃ e, decrypt ((encrypt [1, 2, 3] [9] (fun _ => 0)).set 0 5) [9] =
        .error e :=
  ⟨by simp [encrypt, headerBytes, encodeParams, sealAEAD, kdfB],
   by simp [encrypt, headerBytes, encodeParams, List.getD],
   single_byte_tamper_fails [1, 2, 3] [9] (fun _ => 0) 0 5
     (by simp [encrypt, headerBytes, encodeParams, sealAEAD, kdfB])
     (by simp [encrypt, headerBytes, encodeParams, List.getD])⟩


/-- C4: truncating a container produced by `encrypt` at any chunk boundary
before the chunk marked final makes decryption fail with
`UnexpectedEndOfStream` — a stream that ends without a final-marked chunk
never succeeds. -/
theorem truncation_unexpected_end (P S : List Byte) (rng : Nat → Byte)
    (k : Nat) (hk : k < (chunkify P).length) :
    decrypt ((encrypt P S rng).take (HL + k * FULLB)) S =
      .error .UnexpectedEndOfStream := by
  have hhl := encrypt_header_length S rng
  rw [encrypt]
  have htk : (headerBytes paramsDefault [rng 0, rng 1] [rng 2, rng 3]
      [rng 6, rng 7] (sealAEAD (kdfB S [rng 0, rng 1] paramsDefault)
        [rng 6, rng 7] adSlot [rng 4, rng 5]) ++
      encChunks [rng 4, rng 5] [rng 2, rng 3] 0 (chunkify P)).take
        (HL + k * FULLB) =
      headerBytes paramsDefault [rng 0, rng 1] [rng 2, rng 3] [rng 6, rng 7]
        (sealAEAD (kdfB S [rng 0, rng 1] paramsDefault) [rng 6, rng 7]
          adSlot [rng 4, rng 5]) ++
        (encChunks [rng 4, rng 5] [rng 2, rng 3] 0 (chunkify P)).take
          (k * FULLB) := by
    rw [← hhl]
    exact takeAppGen _ _ _
  rw [htk, decrypt_with_tail]
  exact decChunks_truncated [rng 4, rng 5] [rng 2, rng 3] (by rfl) k 0 _
    (chunkify_chunked P) hk

/-- Witness for C4: dropping the final chunk of a concrete two-chunk
container yields `UnexpectedEndOfStream`. -/
theorem truncation_unexpected_end_witness :
    1 < (chunkify [1, 2, 3]).length ∧
      decrypt ((encrypt [1, 2, 3] [9] (fun _ => 0)).take (HL + 1 * FULLB))
        [9] = .error .UnexpectedEndOfStream :=
  ⟨by simp [chunkify, CHUNK],
   truncation_unexpected_end [1, 2, 3] [9] (fun _ => 0) 1
     (by simp [chunkify, CHUNK])⟩

/-- C5: the per-chunk nonce is derived deterministically from the base nonce
and the chunk index, and the derivation is injective in the index: within
one container two chunk indices yield the same nonce exactly when they are
equal, so no nonce is reused across chunks. -/
theorem chunk_nonce_injective (bn : List Byte) (i j : Nat) :
    chunkNonce bn i = chunkNonce bn j ↔ i = j := by
  constructor
  · intro h
    exact natToVarint_injective (List.append_cancel_left h)
  · intro h
    rw [h]


/-- C6: during decryption the header's own tag is verified before any key
slot is attempted: whenever the key slot is opened, the trace shows header
verification succeeded first (and the KDF ran only after it), and a header
whose tag fails verification causes no KDF work and no slot attempt. -/
theorem header_verified_before_slot (C S : List Byte) :
    (Ev.slotOpen ∈ (decryptT C S).2 →
      (decryptT C S).2 = [Ev.headerVerified, Ev.kdfRun, Ev.slotOpen]) ∧
    (C.getD 20 0 ≠ sumF (C.take 20) →
      Ev.kdfRun ∉ (decryptT C S).2 ∧ Ev.slotOpen ∉ (decryptT C S).2) := by
  by_cases h1 : C.length < HL
  · rw [decryptT, if_pos h1]
    constructor
    · intro hmem
      simp at hmem
    · intro _
      simp
  · by_cases h2 : C.getD 20 0 ≠ sumF (C.take 20)
    · rw [decryptT, if_neg h1, if_pos h2]
      constructor
      · intro hmem
        simp at hmem
      · intro _
        constructor <;> simp
    · rw [decryptT, if_neg h1, if_neg h2]
      refine ⟨?_, fun hc => absurd hc h2⟩
      split_ifs
      all_goals intro hmem
      all_goals try simp at hmem
      split
      · rfl
      · rfl

/-- Witness for C6: a concrete well-formed header reaches the slot attempt
with the header verified first. -/
theorem header_verified_before_slot_witness :
    Ev.slotOpen ∈ (decryptT (headerBytes paramsDefault [0, 0] [0, 0] [0, 0]
        (sealAEAD [0, 0] [0, 0] adSlot [0, 0])) []).2 ∧
      (decryptT (headerBytes paramsDefault [0, 0] [0, 0] [0, 0]
        (sealAEAD [0, 0] [0, 0] adSlot [0, 0])) []).2 =
        [Ev.headerVerified, Ev.kdfRun, Ev.slotOpen] :=
  ⟨by decide,
   (header_verified_before_slot
     (headerBytes paramsDefault [0, 0] [0, 0] [0, 0]
       (sealAEAD [0, 0] [0, 0] adSlot [0, 0])) []).1 (by decide)⟩

/-- C7: the key-derivation function is deterministic — two invocations on
equal passphrase, salt and KDF parameters yield equal keys. -/
theorem derive_deterministic (p1 p2 : Protected) (s1 s2 : List Byte)
    (prm1 prm2 : Params) (hp : p1 = p2) (hs : s1 = s2) (hprm : prm1 = prm2) :
    derive p1 s1 prm1 = derive p2 s2 prm2 := by
  rw [hp, hs, hprm]

/-- Witness for C7 at concrete equal inputs. -/
theorem derive_deterministic_witness :
    derive ⟨[1]⟩ [2, 3] paramsDefault = derive ⟨[1]⟩ [2, 3] paramsDefault :=
  derive_deterministic ⟨[1]⟩ ⟨[1]⟩ [2, 3] [2, 3] paramsDefault paramsDefault
    rfl rfl rfl

/-- C8: over every sequence of protected-memory operations — including early
destruction, consumption by `into_inner`, and moves/resizes — every region
whose owner has been released reads back as all-zero bytes. -/
theorem protected_zeroized_on_release (ops : List POp) (id : Nat)
    (h : (pRun ops).released.getD id false = true) :
    allZero ((pRun ops).regions.getD id []) :=
  (pRun_wiped ops).2 id h

/-- Witness for C8: a concrete create-then-destroy lifetime leaves the
region zeroized. -/
theorem protected_zeroized_on_release_witness :
    (pRun [POp.create [5, 7], POp.destroy 0]).released.getD 0 false = true ∧
      allZero ((pRun [POp.create [5, 7], POp.destroy 0]).regions.getD 0 []) :=
  ⟨by decide,
   protected_zeroized_on_release [POp.create [5, 7], POp.destroy 0] 0
     (by decide)⟩


/-- C9: `FFmpegDict`'s destructor frees the dictionary exactly when the
wrapper is managed (created via `new(None)`) and the pointer is non-null;
`get`, `set` and `remove` never change the `managed` flag, so a wrapper over
a borrowed dictionary (`new(Some(_))`) is never freed by drop, and a
`new(None)` wrapper stays managed. -/
theorem ffmpeg_dict_drop_managed :
    (∀ d : FFmpegDict,
        (FFmpegDict.drop d).1 = true ↔ d.managed = true ∧ d.dict ≠ 0) ∧
      (∀ (d : FFmpegDict) (op : DictOp),
        (applyDictOp d op).managed = d.managed) ∧
      (∀ (p : Nat) (ops : List DictOp),
        (runDictOps (FFmpegDict.new (some p)) ops).managed = false) ∧
      (∀ (p : Nat) (ops : List DictOp),
        (FFmpegDict.drop (runDictOps (FFmpegDict.new (some p)) ops)).1 =
          false) ∧
      (∀ ops : List DictOp,
        (runDictOps (FFmpegDict.new none) ops).managed = true) := by
  refine ⟨?_, applyDictOp_managed, ?_, ?_, ?_⟩
  · intro d
    rw [FFmpegDict.drop]
    split_ifs with h
    · simp [h]
    · simp [h]
  · intro p ops
    rw [runDictOps_managed]
    rfl
  · intro p ops
    rw [FFmpegDict.drop]
    split_ifs with h
    · exfalso
      have hm := runDictOps_managed (FFmpegDict.new (some p)) ops
      rw [hm] at h
      exact absurd h.1 (by simp [FFmpegDict.new])
    · rfl
  · intro ops
    rw [runDictOps_managed]
    rfl

/-- C10: in the `FFmpegDict` to `MediaMetadata` conversion, an entry with an
absent value is ignored; an entry with an unrecognized key is inserted into
the custom map with its value; `creation_time` and `date` values are parsed
first as RFC 2822 and, failing that, as RFC 3339, and stay untouched when
both parses fail; a non-numeric `disc`, `track` or `variant_bitrate` value
leaves that field untouched.  (The conversion is a total function, so no
entry can fail it.) -/
theorem media_metadata_conversion (p2822 p3339 : String → Option Nat)
    (pDisc pTrack pBitrate : String → Option Int) :
    (∀ m k, applyEntry p2822 p3339 pDisc pTrack pBitrate m (k, none) = m) ∧
    (∀ m k v, k ∉ recognizedKeys →
      applyEntry p2822 p3339 pDisc pTrack pBitrate m (k, some v) =
        { m with custom := insertKV m.custom k v }) ∧
    (∀ m v t, p2822 v = some t →
      applyEntry p2822 p3339 pDisc pTrack pBitrate m
        ("creation_time", some v) = { m with creation_time := some t }) ∧
    (∀ m v t, p2822 v = none → p3339 v = some t →
      applyEntry p2822 p3339 pDisc pTrack pBitrate m
        ("creation_time", some v) = { m with creation_time := some t }) ∧
    (∀ m v, p2822 v = none → p3339 v = none →
      applyEntry p2822 p3339 pDisc pTrack pBitrate m
        ("creation_time", some v) = m) ∧
    (∀ m v t, p2822 v = some t →
      applyEntry p2822 p3339 pDisc pTrack pBitrate m ("date", some v) =
        { m with date := some t }) ∧
    (∀ m v t, p2822 v = none → p3339 v = some t →
      applyEntry p2822 p3339 pDisc pTrack pBitrate m ("date", some v) =
        { m with date := some t }) ∧
    (∀ m v, p2822 v = none → p3339 v = none →
      applyEntry p2822 p3339 pDisc pTrack pBitrate m ("date", some v) = m) ∧
    (∀ m v, pDisc v = none →
      applyEntry p2822 p3339 pDisc pTrack pBitrate m ("disc", some v) = m) ∧
    (∀ m v, pTrack v = none →
      applyEntry p2822 p3339 pDisc pTrack pBitrate m ("track", some v) = m) ∧
    (∀ m v, pBitrate v = none →
      applyEntry p2822 p3339 pDisc pTrack pBitrate m
        ("variant_bitrate", some v) = m) := by
  refine ⟨fun m k => rfl, ?_, ?_, ?_, ?_, ?_, ?_, ?_, ?_, ?_, ?_⟩
  · intro m k v hk
    simp [recognizedKeys] at hk
    simp [applyEntry, hk]
  · intro m v t h
    simp [applyEntry, h]
  · intro m v t h1 h2
    simp [applyEntry, h1, h2]
  · intro m v h1 h2
    simp [applyEntry, h1, h2]
  · intro m v t h
    simp [applyEntry, h]
  · intro m v t h1 h2
    simp [applyEntry, h1, h2]
  · intro m v h1 h2
    simp [applyEntry, h1, h2]
  · intro m v h
    simp [applyEntry, h]
  · intro m v h
    simp [applyEntry, h]
  · intro m v h
    simp [applyEntry, h]

/-- Witness for C10: an unrecognized key lands in the custom map. -/
theorem media_metadata_conversion_witness :
    "zzz" ∉ recognizedKeys ∧
      applyEntry (fun _ => none) (fun _ => none) (fun _ => none)
        (fun _ => none) (fun _ => none) {} ("zzz", some "w") =
        { ({} : MediaMetadata) with
            custom := insertKV ({} : MediaMetadata).custom "zzz" "w" } :=
  ⟨by decide,
   (media_metadata_conversion (fun _ => none) (fun _ => none) (fun _ => none)
     (fun _ => none) (fun _ => none)).2.1 {} "zzz" "w" (by decide)⟩

